/-
Verification of pw_presubmit/format_code.py (a formatting check/fix
orchestrator) against its natural-language specification.

Modelling conventions:
  * Python `str` is modelled as `List Char` (`Str`); `bytes` as `List Nat`.
  * Python dicts are association lists with insertion-order semantics:
    assignment to an existing key updates the value in place, a new key is
    appended at the end (exactly Python 3.7+ dict behaviour).
  * External processes (clang-format, gn, gofmt, yapf, git) and the Python
    standard library `difflib.unified_diff` are inputs: the embedded
    functions take their outputs as parameters.
  * Logging and other side effects are modelled as explicit event lists.
-/
import Mathlib

/-- Python `str` modelled as a list of characters. -/
abbrev Str : Type := List Char

/-- Python `bytes` modelled as a list of byte values. -/
abbrev Bytes : Type := List Nat

/-- Lexicographic comparison of strings by code point, as Python `<=` on
`str` (used by `sorted`). -/
def strLe : Str → Str → Bool
  | [], _ => true
  | _ :: _, [] => false
  | a :: as, b :: bs => if a = b then strLe as bs else decide (a < b)

/-- Python dict assignment `d[k] = v`: update in place if the key exists
(keeping its position), else append the new pair at the end. -/
def dictAssign {α : Type} : List (Str × α) → Str → α → List (Str × α)
  | [], k, v => [(k, v)]
  | (k0, v0) :: rest, k, v =>
    if k0 = k then (k0, v) :: rest else (k0, v0) :: dictAssign rest k v

/-- Python `d.update(new)`: assign every pair of `new` into `d` in order. -/
def dictUpdate {α : Type} (d : List (Str × α)) (new : List (Str × α)) :
    List (Str × α) :=
  new.foldl (fun d kv => dictAssign d kv.1 kv.2) d

/-- Python `d.get(k)` / `k in d` combined: the value stored at a key. -/
def dictLookup {α : Type} : List (Str × α) → Str → Option α
  | [], _ => none
  | (k0, v) :: rest, k => if k0 = k then some v else dictLookup rest k

/-- `class CodeFormat(NamedTuple)`: the check/fix callables are kept
external (they shell out to subprocesses), so identity is the
language/extension data, which is all the grouping logic inspects. -/
structure CodeFormat where
  language : Str
  extensions : List Str
deriving DecidableEq, Repr

/-- `C_FORMAT`: C and C++, handled by clang-format. -/
def C_FORMAT : CodeFormat :=
  ⟨"C and C++".data,
   [".h".data, ".hh".data, ".hpp".data, ".c".data, ".cc".data, ".cpp".data]⟩

/-- `GN_FORMAT`. -/
def GN_FORMAT : CodeFormat := ⟨"GN".data, [".gn".data, ".gni".data]⟩

/-- `GO_FORMAT`. -/
def GO_FORMAT : CodeFormat := ⟨"Go".data, [".go".data]⟩

/-- `PYTHON_FORMAT`. -/
def PYTHON_FORMAT : CodeFormat := ⟨"Python".data, [".py".data]⟩

/-- `CODE_FORMATS`: the static registry, in source order. -/
def CODE_FORMATS : List CodeFormat :=
  [C_FORMAT, GN_FORMAT, GO_FORMAT, PYTHON_FORMAT]

/-- `any(path.endswith(e) for e in code_format.extensions)`. -/
def matchesFormat (path : Str) (f : CodeFormat) : Bool :=
  f.extensions.any (fun e => e.isSuffixOf path)

/-- Follows the spec's words (section 4.1): `classify(path) -> ToolSpec or
none`, first match wins in registry order. -/
def classify (path : Str) : Option CodeFormat :=
  CODE_FORMATS.find? (fun f => matchesFormat path f)

/-- `self._formats[code_format].append(path)` on a
`collections.defaultdict(list)`: append to the entry for the key, creating
it at the end on first use. -/
def appendToGroup : List (CodeFormat × List Str) → CodeFormat → Str →
    List (CodeFormat × List Str)
  | [], f, p => [(f, [p])]
  | (g, l) :: rest, f, p =>
    if g = f then (g, l ++ [p]) :: rest else (g, l) :: appendToGroup rest f p

/-- The inner loop of `CodeFormatter.__init__`: try every registered format
against one path (note the source has no `break`). -/
def addPath (gs : List (CodeFormat × List Str)) (p : Str) :
    List (CodeFormat × List Str) :=
  CODE_FORMATS.foldl
    (fun gs f => if matchesFormat p f then appendToGroup gs f p else gs) gs

/-- `CodeFormatter.__init__`: build `self._formats`, the grouping of the
input files by code format, iterating files in order. -/
def CodeFormatter.formats (files : List Str) : List (CodeFormat × List Str) :=
  files.foldl addPath []

/-- Modelled from the spec (section 4.3): the color helpers
(`pw_presubmit.color_bold_white` etc.) live in the `pw_presubmit` package,
which is not under `src/`; the spec only requires four distinct colors
applied per line. They are modelled as standard ANSI SGR wrappers:
`ESC [ code m` before the text and `ESC [ 0 m` after it. -/
def sgrWrap (code : Str) (s : Str) : Str :=
  '\x1b' :: '[' :: code ++ 'm' :: s ++ "\x1b[0m".data

/-- Modelled from the spec: `pw_presubmit.color_bold_white`. -/
def color_bold_white : Str → Str := sgrWrap "1;37".data

/-- Modelled from the spec: `pw_presubmit.color_red`. -/
def color_red : Str → Str := sgrWrap "31".data

/-- Modelled from the spec: `pw_presubmit.color_green`. -/
def color_green : Str → Str := sgrWrap "32".data

/-- Modelled from the spec: `pw_presubmit.color_aqua`. -/
def color_aqua : Str → Str := sgrWrap "36".data

/-- Helper for `str.splitlines(keepends=True)`: `acc` holds the current
line reversed. Line endings are modelled as `'\n'` (the endings unified
diffs and yapf output use). -/
def splitlinesAux : Str → Str → List Str
  | [], acc => if acc = [] then [] else [acc.reverse]
  | c :: cs, acc =>
    if c = '\n' then (acc.reverse ++ ['\n']) :: splitlinesAux cs []
    else splitlinesAux cs (c :: acc)

/-- Python `s.splitlines(keepends=True)` (for `'\n'` line endings). -/
def splitlinesKeepends (s : Str) : List Str := splitlinesAux s []

/-- `_colorize_diff_line`. -/
def _colorize_diff_line (line : Str) : Str :=
  if "--- ".data.isPrefixOf line || "+++ ".data.isPrefixOf line then
    color_bold_white line
  else if "-".data.isPrefixOf line then color_red line
  else if "+".data.isPrefixOf line then color_green line
  else if "@@ ".data.isPrefixOf line then color_aqua line
  else line

/-- `colorize_diff` applied to a list of lines (the iterable case). -/
def colorize_diff (lines : List Str) : Str :=
  (lines.map _colorize_diff_line).flatten

/-- `colorize_diff` applied to a single string (the `isinstance(lines,
str)` case: split into lines keeping the endings, then colorize). -/
def colorize_diff_str (s : Str) : Str :=
  colorize_diff (splitlinesKeepends s)

/-- `_diff(path, original, formatted)`. `difflib.unified_diff` is standard
library code, not part of this repository, so it is a parameter `udiff`
taking the two line lists and the two file labels; byte decoding with
`errors='replace'` is likewise a parameter `decode` (it never fails). -/
def _diff (udiff : List Str → List Str → Str → Str → List Str)
    (decode : Bytes → Str) (path : Str) (original formatted : Bytes) : Str :=
  colorize_diff
    (udiff (splitlinesKeepends (decode original))
      (splitlinesKeepends (decode formatted))
      (path ++ "  (original)".data) (path ++ "  (reformatted)".data))

/-- `_diff_formatted(path, formatter)`: reading the file is modelled by
the `contents` parameter. Returns `none` exactly when the formatter output
equals the on-disk bytes. -/
def _diff_formatted (udiff : List Str → List Str → Str → Str → List Str)
    (decode : Bytes → Str) (contents : Str → Bytes) (path : Str)
    (formatter : Str → Bytes → Bytes) : Option Str :=
  let original := contents path
  let formatted := formatter path original
  if formatted = original then none
  else some (_diff udiff decode path original formatted)

/-- `_check_files(files, formatter)`: `errors[path] = difference` is only
executed when `difference` is truthy, i.e. neither `None` nor `''`. -/
def _check_files (udiff : List Str → List Str → Str → Str → List Str)
    (decode : Bytes → Str) (contents : Str → Bytes) (files : List Str)
    (formatter : Str → Bytes → Bytes) : List (Str × Str) :=
  files.foldl
    (fun errors path =>
      match _diff_formatted udiff decode contents path formatter with
      | none => errors
      | some d => if d = [] then errors else dictAssign errors path d)
    []

/-- `CodeFormatter.check`: each group's tool check is external (a
subprocess), so it is the parameter `toolCheck`; results are merged with
`errors.update(...)` over the groups in order, then
`collections.OrderedDict(sorted(errors.items()))` sorts the entries (keys
are unique, so sorting pairs is sorting by path). -/
def CodeFormatter.check (formats : List (CodeFormat × List Str))
    (toolCheck : CodeFormat → List Str → List (Str × Str)) :
    List (Str × Str) :=
  (formats.foldl (fun errors fg => dictUpdate errors (toolCheck fg.1 fg.2))
      []).mergeSort (fun a b => strLe a.1 b.1)

/-- Python `\s` for the character classes appearing here (ASCII whitespace;
note `\s` also matches the newline). -/
def pyWhitespace (c : Char) : Bool :=
  c = ' ' || c = '\t' || c = '\n' || c = '\r' || c = '\x0b' || c = '\x0c'

/-- After the group and the `\s+` run: the literal `(original)` must
follow, and then `$` (with `re.MULTILINE`: end of string or a newline). -/
def origAt (t : Str) : Bool :=
  "(original)".data.isPrefixOf t &&
    (match t.drop 10 with | [] => true | c :: _ => c = '\n')

/-- Backtracking for `\s+` (greedy): `w` counts down from the length of
the maximal whitespace run; the first `w ≥ 1` whose end is followed by
`(original)$` wins. -/
def tryW (rest2 : Str) : Nat → Option Nat
  | 0 => none
  | w + 1 => if origAt (rest2.drop (w + 1)) then some (w + 1) else tryW rest2 w

/-- Backtracking for the greedy group `(.*)`: `p` counts down from the
length of the newline-free prefix; for each `p` the whitespace run starting
at `p` is tried longest-first. Returns (group length, whitespace length). -/
def tryA (rest : Str) : Nat → Option (Nat × Nat)
  | 0 =>
    (tryW rest ((rest.takeWhile pyWhitespace).length)).map (fun w => (0, w))
  | p + 1 =>
    match tryW (rest.drop (p + 1))
        (((rest.drop (p + 1)).takeWhile pyWhitespace).length) with
    | some w => some (p + 1, w)
    | none => tryA rest p

/-- One attempted match of `_DIFF_START`, the MULTILINE regex
`^--- (.*)\s+\(original\)$`, against the text starting at a line-start
position: the text must begin with the literal `--- `; then the greedy
group, `\s+` and `(original)$` as above. Returns group 1 and the number of
characters the match consumes (`--- ` + group + whitespace +
`(original)`). -/
def matchHeaderAt (l : Str) : Option (Str × Nat) :=
  if "--- ".data.isPrefixOf l then
    let rest := l.drop 4
    match tryA rest ((rest.takeWhile (fun c => c != '\n')).length) with
    | some pw => some (rest.take pw.1, 4 + pw.1 + pw.2 + 10)
    | none => none
  else none

/-- `_DIFF_START.finditer(raw_diff)`: scan left to right; with
`re.MULTILINE` the `^` anchor lets a match start only at position 0 or
right after a newline; matches are non-overlapping, scanning resumes at
the match end (which is the `)` of `(original)`, never a newline, so the
resumption point is not a line start). Records (start position, group 1)
for each match. The fuel argument (the length of the text at the top
call) only makes the recursion structural: every step consumes at least
one character, so fuel never runs out before the text does. -/
def finditerAux : Nat → Str → Nat → Bool → List (Nat × Str)
  | 0, _, _, _ => []
  | _ + 1, [], _, _ => []
  | fuel + 1, c :: cs, pos, lineStart =>
    if lineStart then
      match matchHeaderAt (c :: cs) with
      | some gl =>
        (pos, gl.1) ::
          finditerAux fuel (cs.drop (gl.2 - 1)) (pos + gl.2) false
      | none => finditerAux fuel cs (pos + 1) (c = '\n')
    else finditerAux fuel cs (pos + 1) (c = '\n')

/-- All matches of `_DIFF_START` over the decoded yapf stdout. -/
def finditer (s : Str) : List (Nat × Str) := finditerAux s.length s 0 true

/-- The loop `for start, end in zip(matches, (*matches[1:], None))`: each
match contributes the entry mapping its group 1 to the colorized slice of
`raw_diff` from this match's start up to the next match's start (end of
string for the last match). This is also the spec's description of the
per-file splitting. -/
def segEntries (raw : Str) (ms : List (Nat × Str)) : List (Str × Str) :=
  (ms.zip ((ms.drop 1).map some ++ [none])).map
    (fun se =>
      (se.1.2,
       colorize_diff_str
         (match se.2 with
          | some e => (raw.drop se.1.1).take (e.1 - se.1.1)
          | none => raw.drop se.1.1)))

/-- Python `str.rstrip()`: strip trailing whitespace. -/
def rstrip (s : Str) : Str := (s.reverse.dropWhile pyWhitespace).reverse

/-- `check_py_format(files)`: yapf is an external process, so its captured
`stdout` and `stderr` (already decoded with `errors='replace'`; empty
string models falsy `process.stdout`/`process.stderr`) are parameters.
The stdout branch fills the `errors` dict with one assignment per match;
the stderr branch logs once and then merges `{file: '' for file in files
if file not in errors}` into `errors`. Returns the dict and the logged
messages. -/
def check_py_format (files : List Str) (stdout stderr : Str) :
    List (Str × Str) × List Str :=
  let errors :=
    if stdout = [] then []
    else
      (segEntries stdout (finditer stdout)).foldl
        (fun d kv => dictAssign d kv.1 kv.2) []
  if stderr = [] then (errors, [])
  else
    let upd :=
      (files.filter (fun f => (dictLookup errors f).isNone)).foldl
        (fun d f => dictAssign d f ([] : Str)) []
    (dictUpdate errors upd,
     ["yapf encountered an error:\n".data ++ rstrip stderr])

/-- The observable actions of `main`, in program order. -/
inductive Event where
  | repoLog : Event
  | criticalBaseOutsideRepo : Event
  | debugFiles : Event
  | infoCount : Event
  | ranCheck : Event
  | ranReport : Bool → Bool → Event
  | ranFix : Event
  | infoFixed : Event
  | errorFound : Event
  | infoSuccess : Event
deriving DecidableEq, Repr

/-- The collaborators `main` consults: the version-control query service
(`pw_presubmit.is_git_repo`, `list_git_files`) and the filesystem
(`path.is_file()`, `path.resolve()`). -/
structure MainEnv where
  isGitRepo : Bool
  isFile : Str → Bool
  resolve : Str → Str
  listGitFiles : Str → List Str → List Str → List Str

/-- `files = [str(path.resolve()) for path in paths if path.is_file()]`. -/
def initialFiles (env : MainEnv) (paths : List Str) : List Str :=
  (paths.filter env.isFile).map env.resolve

/-- Python dict-free set dedup keeping first occurrences (membership is
what matters; `sorted` follows). -/
def dedupFirstAux : List Str → List Str → List Str
  | [], _ => []
  | x :: xs, seen =>
    if x ∈ seen then dedupFirstAux xs seen
    else x :: dedupFirstAux xs (x :: seen)

/-- First-occurrence deduplication. -/
def dedupFirst (l : List Str) : List Str := dedupFirstAux l []

/-- `sorted(file_set | set(files))`: the union of the Git listing and the
resolved explicit files, as a sorted duplicate-free list. -/
def sortedFileUnion (gitFiles files : List Str) : List Str :=
  (dedupFirst (gitFiles ++ files)).mergeSort strLe

/-- The file-list resolution of `main` (steps 1 and 2): explicit paths
filtered to regular files and resolved; inside a Git repo additionally
unioned with `list_git_files(base, paths, exclude)`, deduplicated and
sorted. -/
def resolvedFiles (env : MainEnv) (paths exclude : List Str) (base : Str) :
    List Str :=
  if env.isGitRepo then
    sortedFileUnion (env.listGitFiles base paths exclude)
      (initialFiles env paths)
  else initialFiles env paths

/-- `main` from the `formatter = CodeFormatter(files)` line onward:
debug/info logs, `check()`, `print_format_check(errors, show_fix_commands=
not fix)`, then returns 0 on no errors, runs `fix()` and returns 0 when
errors were found and fixing was requested, and returns 1 otherwise. -/
def mainBody (files : List Str)
    (toolCheck : CodeFormat → List Str → List (Str × Str)) (fix : Bool) :
    Nat × List Event :=
  let errors := CodeFormatter.check (CodeFormatter.formats files) toolCheck
  let evs := [Event.debugFiles, Event.infoCount, Event.ranCheck,
    Event.ranReport errors.isEmpty (!fix)]
  if errors.isEmpty then (0, evs ++ [Event.infoSuccess])
  else if fix then (0, evs ++ [Event.ranFix, Event.infoFixed])
  else (1, evs ++ [Event.errorFound])

/-- `main(paths, exclude, base, fix)` (named `mainEntry` here since Lean reserves `main`): resolve the file list; when not in
a Git repo but a base was supplied (`elif base:`), log critically and
return 1 at once; otherwise proceed with `mainBody`. -/
def mainEntry (env : MainEnv)
    (toolCheck : CodeFormat → List Str → List (Str × Str))
    (paths exclude : List Str) (base : Str) (fix : Bool) : Nat × List Event :=
  if env.isGitRepo then
    let res := mainBody (resolvedFiles env paths exclude base) toolCheck fix
    (res.1, Event.repoLog :: res.2)
  else if base = [] then
    mainBody (resolvedFiles env paths exclude base) toolCheck fix
  else (1, [Event.criticalBaseOutsideRepo])

/-- Shape of the output of `splitlinesKeepends`: every piece is free of
interior newlines, every piece but the last ends in a newline, and the
last piece is nonempty (it may or may not end in a newline). -/
inductive LinesShape : List Str → Prop where
  | nil : LinesShape []
  | lastNoNl : ∀ u : Str, '\n' ∉ u → u ≠ [] → LinesShape [u]
  | consNl : ∀ (u : Str) (rest : List Str), '\n' ∉ u → LinesShape rest →
      LinesShape ((u ++ ['\n']) :: rest)

/-- Across two distinct registered formats, no extension is a suffix of
another; hence no path can end with extensions of two different formats. -/
theorem crossExtensionsNotSuffix :
    ∀ f1 ∈ CODE_FORMATS, ∀ f2 ∈ CODE_FORMATS, f1 ≠ f2 →
      ∀ e1 ∈ f1.extensions, ∀ e2 ∈ f2.extensions, ¬ e1 <:+ e2 := by
  decide

/-- At most one registered format matches any given path. -/
theorem matchesFormat_unique {p : Str} {f1 f2 : CodeFormat}
    (h1 : f1 ∈ CODE_FORMATS) (h2 : f2 ∈ CODE_FORMATS)
    (m1 : matchesFormat p f1 = true) (m2 : matchesFormat p f2 = true) :
    f1 = f2 := by
  by_contra hne
  rcases List.any_eq_true.mp m1 with ⟨e1, he1, hs1⟩
  rcases List.any_eq_true.mp m2 with ⟨e2, he2, hs2⟩
  rw [List.isSuffixOf_iff_suffix] at hs1 hs2
  rcases List.suffix_or_suffix_of_suffix hs1 hs2 with h | h
  · exact crossExtensionsNotSuffix f1 h1 f2 h2 hne e1 he1 e2 he2 h
  · exact crossExtensionsNotSuffix f2 h2 f1 h1 (Ne.symm hne) e2 he2 e1 he1 h

/-- If a registered format matches a path then `classify` (first match in
registry order) returns exactly that format. -/
theorem classify_eq_of_matches {p : Str} {f : CodeFormat}
    (hf : f ∈ CODE_FORMATS) (hm : matchesFormat p f = true) :
    classify p = some f := by
  have huniq : ∀ g ∈ CODE_FORMATS, matchesFormat p g = true → g = f :=
    fun g hg hmg => matchesFormat_unique hg hf hmg hm
  unfold classify
  fin_cases hf <;>
    simp only [CODE_FORMATS, List.find?] <;>
    [skip;
     (have hc : matchesFormat p C_FORMAT = false := by
        by_contra h
        have := huniq C_FORMAT (by decide) (by simpa using h)
        exact absurd this (by decide));
     (have hc : matchesFormat p C_FORMAT = false := by
        by_contra h
        have := huniq C_FORMAT (by decide) (by simpa using h)
        exact absurd this (by decide));
     (have hc : matchesFormat p C_FORMAT = false := by
        by_contra h
        have := huniq C_FORMAT (by decide) (by simpa using h)
        exact absurd this (by decide))] <;>
    [skip; skip;
     (have hg : matchesFormat p GN_FORMAT = false := by
        by_contra h
        have := huniq GN_FORMAT (by decide) (by simpa using h)
        exact absurd this (by decide));
     (have hg : matchesFormat p GN_FORMAT = false := by
        by_contra h
        have := huniq GN_FORMAT (by decide) (by simpa using h)
        exact absurd this (by decide))] <;>
    [skip; skip; skip;
     (have ho : matchesFormat p GO_FORMAT = false := by
        by_contra h
        have := huniq GO_FORMAT (by decide) (by simpa using h)
        exact absurd this (by decide))] <;>
    simp [*]

/-- A path found in a group after `appendToGroup` was either already in a
group, or is the appended path going to the appended format. -/
theorem mem_appendToGroup {gs : List (CodeFormat × List Str)}
    {f f' : CodeFormat} {l' : List Str} {p q : Str}
    (h : (f', l') ∈ appendToGroup gs f p) (hq : q ∈ l') :
    (∃ l'', (f', l'') ∈ gs ∧ q ∈ l'') ∨ (q = p ∧ f' = f) := by
  induction gs with
  | nil =>
    simp only [appendToGroup, List.mem_singleton] at h
    cases h
    right
    exact ⟨List.mem_singleton.mp hq, rfl⟩
  | cons g rest ih =>
    obtain ⟨g0, l0⟩ := g
    simp only [appendToGroup] at h
    by_cases hg : g0 = f
    · simp only [if_pos hg, List.mem_cons] at h
      rcases h with h | h
      · obtain ⟨h1, h2⟩ := Prod.mk.injEq .. ▸ h
        subst h1; subst h2
        rcases List.mem_append.mp hq with h | h
        · exact Or.inl ⟨l0, List.mem_cons_self _ _, h⟩
        · exact Or.inr ⟨List.mem_singleton.mp h, hg⟩
      · exact Or.inl ⟨l', List.mem_cons_of_mem _ h, hq⟩
    · simp only [if_neg hg, List.mem_cons] at h
      rcases h with h | h
      · cases h
        exact Or.inl ⟨l', List.mem_cons_self _ _, hq⟩
      · rcases ih h with ⟨l'', hm, hql⟩ | hr
        · exact Or.inl ⟨l'', List.mem_cons_of_mem _ hm, hql⟩
        · exact Or.inr hr

/-- Invariant of the inner loop of `CodeFormatter.__init__` over any tail
of the registry: new group members are the current path, put into a
matching format of that tail. -/
theorem mem_foldFormats {p0 q : Str} {f' : CodeFormat} {l' : List Str} :
    ∀ (L : List CodeFormat) (gs : List (CodeFormat × List Str)),
      (f', l') ∈ L.foldl
          (fun gs f => if matchesFormat p0 f then appendToGroup gs f p0
            else gs) gs →
      q ∈ l' →
      (∃ l'', (f', l'') ∈ gs ∧ q ∈ l'') ∨
        (q = p0 ∧ f' ∈ L ∧ matchesFormat p0 f' = true) := by
  intro L
  induction L with
  | nil => intro gs h hq; exact Or.inl ⟨l', h, hq⟩
  | cons f L ih =>
    intro gs h hq
    simp only [List.foldl_cons] at h
    rcases ih _ h hq with ⟨l'', hm, hql⟩ | ⟨hqp, hfL, hmf⟩
    · by_cases hf : matchesFormat p0 f = true
      · rw [if_pos hf] at hm
        rcases mem_appendToGroup hm hql with hin | ⟨hqp, hff⟩
        · exact Or.inl hin
        · exact Or.inr ⟨hqp, by rw [hff]; exact List.mem_cons_self _ _,
            by rw [hff]; exact hf⟩
      · rw [if_neg hf] at hm
        exact Or.inl ⟨l'', hm, hql⟩
    · exact Or.inr ⟨hqp, List.mem_cons_of_mem _ hfL, hmf⟩

/-- Every path stored in a group of `CodeFormatter.formats` matches that
group's (registered) format. -/
theorem mem_formats {q : Str} {f' : CodeFormat} {l' : List Str} :
    ∀ (files : List Str) (gs : List (CodeFormat × List Str)),
      (f', l') ∈ files.foldl addPath gs → q ∈ l' →
      (∃ l'', (f', l'') ∈ gs ∧ q ∈ l'') ∨
        (f' ∈ CODE_FORMATS ∧ matchesFormat q f' = true ∧ q ∈ files) := by
  intro files
  induction files with
  | nil => intro gs h hq; exact Or.inl ⟨l', h, hq⟩
  | cons p0 files ih =>
    intro gs h hq
    simp only [List.foldl_cons] at h
    rcases ih _ h hq with ⟨l'', hm, hql⟩ | ⟨hf, hmf, hqf⟩
    · rcases mem_foldFormats CODE_FORMATS gs hm hql with hin |
        ⟨hqp, hfL, hmf⟩
      · exact Or.inl hin
      · exact Or.inr ⟨hfL, hqp ▸ hmf, hqp ▸ List.mem_cons_self _ _⟩
    · exact Or.inr ⟨hf, hmf, List.mem_cons_of_mem _ hqf⟩

/-- C1: after constructing the orchestrator, a path appears in at most one
(tool, paths) group, and the group it appears in is the one `classify`
(first matching registered tool, in registry order) assigns to it. -/
theorem c1_groups_unique_first_match (files : List Str) (p : Str)
    (f₁ f₂ : CodeFormat) (l₁ l₂ : List Str)
    (h₁ : (f₁, l₁) ∈ CodeFormatter.formats files) (hp₁ : p ∈ l₁)
    (h₂ : (f₂, l₂) ∈ CodeFormatter.formats files) (hp₂ : p ∈ l₂) :
    f₁ = f₂ ∧ classify p = some f₁ := by
  have key : ∀ {f : CodeFormat} {l : List Str},
      (f, l) ∈ CodeFormatter.formats files → p ∈ l →
      f ∈ CODE_FORMATS ∧ matchesFormat p f = true := by
    intro f l h hp
    rcases mem_formats files [] h hp with ⟨l'', hm, _⟩ | ⟨hf, hmf, _⟩
    · simp at hm
    · exact ⟨hf, hmf⟩
  obtain ⟨hf₁, hm₁⟩ := key h₁ hp₁
  obtain ⟨hf₂, hm₂⟩ := key h₂ hp₂
  exact ⟨matchesFormat_unique hf₁ hf₂ hm₁ hm₂, classify_eq_of_matches hf₁ hm₁⟩

/-- Witness for C1 at a concrete input: the file list `["a.py"]` groups
`a.py` under the Python tool, which is also what `classify` assigns. -/
theorem c1_groups_unique_first_match_witness :
    PYTHON_FORMAT = PYTHON_FORMAT ∧
      classify "a.py".data = some PYTHON_FORMAT :=
  c1_groups_unique_first_match ["a.py".data] "a.py".data
    PYTHON_FORMAT PYTHON_FORMAT ["a.py".data] ["a.py".data]
    (by decide) (by decide) (by decide) (by decide)

/-- Looking up a key after a dict assignment. -/
theorem dictLookup_dictAssign {α : Type} (d : List (Str × α)) (k k' : Str)
    (v : α) :
    dictLookup (dictAssign d k v) k' =
      if k = k' then some v else dictLookup d k' := by
  induction d with
  | nil =>
    by_cases h : k = k' <;> simp [dictAssign, dictLookup, h]
  | cons kv rest ih =>
    obtain ⟨k0, v0⟩ := kv
    by_cases h0 : k0 = k
    · subst h0
      by_cases h : k0 = k' <;> simp [dictAssign, dictLookup, h]
    · by_cases h : k0 = k'
      · subst h
        have hk : ¬ k = k0 := fun he => h0 he.symm
        simp [dictAssign, dictLookup, h0, hk]
      · simp [dictAssign, dictLookup, h0, h, ih]

/-- Membership in a dict after an assignment comes from the old dict or is
the assigned pair. -/
theorem mem_dictAssign {α : Type} {d : List (Str × α)} {k k' : Str}
    {v v' : α} (h : (k', v') ∈ dictAssign d k v) :
    (k', v') ∈ d ∨ (k' = k ∧ v' = v) := by
  induction d with
  | nil =>
    simp only [dictAssign, List.mem_singleton] at h
    cases h; exact Or.inr ⟨rfl, rfl⟩
  | cons kv rest ih =>
    obtain ⟨k0, v0⟩ := kv
    simp only [dictAssign] at h
    by_cases h0 : k0 = k
    · rw [if_pos h0] at h
      rcases List.mem_cons.mp h with h | h
      · obtain ⟨h1, h2⟩ := Prod.mk.injEq .. ▸ h
        exact Or.inr ⟨h1 ▸ h0 ▸ rfl, h2⟩
      · exact Or.inl (List.mem_cons_of_mem _ h)
    · rw [if_neg h0] at h
      rcases List.mem_cons.mp h with h | h
      · exact Or.inl (List.mem_cons.mpr (Or.inl h))
      · rcases ih h with h | h
        · exact Or.inl (List.mem_cons_of_mem _ h)
        · exact Or.inr h

/-- C6: when the formatter's output for a path equals the on-disk bytes,
the check pipeline (`_diff_formatted` composed with `_check_files`)
reports no entry for that path, whatever the diff renderer does. -/
theorem c6_identical_buffers_no_entry
    (udiff : List Str → List Str → Str → Str → List Str)
    (decode : Bytes → Str) (contents : Str → Bytes)
    (formatter : Str → Bytes → Bytes) (files : List Str) (path : Str)
    (h : formatter path (contents path) = contents path) :
    dictLookup (_check_files udiff decode contents files formatter) path
      = none := by
  suffices key : ∀ (fs : List Str) (acc : List (Str × Str)),
      dictLookup acc path = none →
      dictLookup
        (fs.foldl
          (fun errors p =>
            match _diff_formatted udiff decode contents p formatter with
            | none => errors
            | some d => if d = [] then errors else dictAssign errors p d)
          acc) path = none by
    exact key files [] rfl
  intro fs
  induction fs with
  | nil => intro acc hacc; exact hacc
  | cons p fs ih =>
    intro acc hacc
    simp only [List.foldl_cons]
    apply ih
    rcases hd : _diff_formatted udiff decode contents p formatter with _ | d
    · simpa only [hd] using hacc
    · simp only [hd]
      by_cases hdnil : d = []
      · simpa only [if_pos hdnil] using hacc
      · rw [if_neg hdnil, dictLookup_dictAssign]
        by_cases hpp : p = path
        · subst hpp
          rw [_diff_formatted] at hd
          simp [h] at hd
        · rw [if_neg hpp]; exact hacc

/-- Witness for C6: an identity formatter on a one-file list yields no
entry for that file. -/
theorem c6_identical_buffers_no_entry_witness :
    dictLookup
      (_check_files (fun _ _ _ _ => []) (fun _ => []) (fun _ => [])
        ["a.c".data] (fun _ b => b)) "a.c".data = none :=
  c6_identical_buffers_no_entry (fun _ _ _ _ => []) (fun _ => [])
    (fun _ => []) (fun _ b => b) ["a.c".data] "a.c".data rfl

/-- Splitting into lines loses nothing: flattening restores the input
(with the pending accumulator first). -/
theorem flatten_splitlinesAux :
    ∀ (l acc : Str), (splitlinesAux l acc).flatten = acc.reverse ++ l := by
  intro l
  induction l with
  | nil =>
    intro acc
    by_cases h : acc = [] <;> simp [splitlinesAux, h]
  | cons c cs ih =>
    intro acc
    by_cases h : c = '\n'
    · subst h
      simp [splitlinesAux, ih]
    · simp [splitlinesAux, h, ih]

/-- Flattening the split lines restores the string. -/
theorem flatten_splitlinesKeepends (s : Str) :
    (splitlinesKeepends s).flatten = s := by
  simpa using flatten_splitlinesAux s []

/-- A newline-free prefix is simply absorbed into the accumulator. -/
theorem splitlinesAux_append_noNl :
    ∀ (a : Str), '\n' ∉ a → ∀ (b acc : Str),
      splitlinesAux (a ++ b) acc = splitlinesAux b (a.reverse ++ acc) := by
  intro a
  induction a with
  | nil => intro _ b acc; simp
  | cons c a' ih =>
    intro hnl b acc
    have hc : ¬ c = '\n' := fun h => hnl (h ▸ List.mem_cons_self _ _)
    have ha' : '\n' ∉ a' := fun h => hnl (List.mem_cons_of_mem _ h)
    simp only [List.cons_append, splitlinesAux, if_neg hc]
    rw [show (a'.append b : Str) = a' ++ b from rfl, ih ha' b (c :: acc)]
    simp

/-- The split lines have the `LinesShape` structure. -/
theorem linesShape_splitlinesAux :
    ∀ (l acc : Str), '\n' ∉ acc → LinesShape (splitlinesAux l acc) := by
  intro l
  induction l with
  | nil =>
    intro acc hacc
    by_cases h : acc = []
    · simp [splitlinesAux, h]; exact LinesShape.nil
    · simp only [splitlinesAux, if_neg h]
      exact LinesShape.lastNoNl acc.reverse
        (fun hm => hacc (List.mem_reverse.mp hm))
        (fun he => h (by simpa using congrArg List.reverse he))
  | cons c cs ih =>
    intro acc hacc
    by_cases h : c = '\n'
    · subst h
      simp only [splitlinesAux, eq_self_iff_true, if_true]
      exact LinesShape.consNl acc.reverse _
        (fun hm => hacc (List.mem_reverse.mp hm))
        (ih [] (by simp))
    · simp only [splitlinesAux, if_neg h]
      exact ih (c :: acc)
        (fun hm => by
          rcases List.mem_cons.mp hm with hm | hm
          · exact h hm.symm
          · exact hacc hm)

/-- The split of a nonempty string is nonempty. -/
theorem splitlinesKeepends_ne_nil {s : Str} (h : s ≠ []) :
    splitlinesKeepends s ≠ [] := by
  intro hnil
  apply h
  have := flatten_splitlinesKeepends s
  rw [hnil] at this
  simpa using this.symm

/-- Each split piece is nonempty. -/
theorem splitlinesAux_pieces_ne_nil :
    ∀ (l acc : Str), ∀ p ∈ splitlinesAux l acc, p ≠ [] := by
  intro l
  induction l with
  | nil =>
    intro acc p hp
    by_cases h : acc = []
    · simp [splitlinesAux, h] at hp
    · simp only [splitlinesAux, if_neg h, List.mem_singleton] at hp
      subst hp
      exact fun he => h (by simpa using congrArg List.reverse he)
  | cons c cs ih =>
    intro acc p hp
    by_cases h : c = '\n'
    · subst h
      simp only [splitlinesAux, eq_self_iff_true, if_true, List.mem_cons]
        at hp
      rcases hp with hp | hp
      · subst hp; simp
      · exact ih [] p hp
    · simp only [splitlinesAux, if_neg h] at hp
      exact ih (c :: acc) p hp

/-- The four styling branches of `_colorize_diff_line`: either some SGR
color (whose code contains no newline) wraps the line, or the line is
returned unchanged. -/
theorem colorize_line_cases (L : Str) :
    (∃ c : Str, _colorize_diff_line L = sgrWrap c L ∧ '\n' ∉ c) ∨
      _colorize_diff_line L = L := by
  unfold _colorize_diff_line
  split_ifs
  · exact Or.inl ⟨"1;37".data, rfl, by decide⟩
  · exact Or.inl ⟨"31".data, rfl, by decide⟩
  · exact Or.inl ⟨"32".data, rfl, by decide⟩
  · exact Or.inl ⟨"36".data, rfl, by decide⟩
  · exact Or.inr rfl

/-- A line whose first character is none of the marker characters is left
unstyled. -/
theorem colorize_line_unstyled_head (c : Char) (t : Str) (h1 : c ≠ '-')
    (h2 : c ≠ '+') (h3 : c ≠ '@') : _colorize_diff_line (c :: t) = c :: t := by
  have e1 : ("--- ".data : Str) = '-' :: "-- ".data := rfl
  have e2 : ("+++ ".data : Str) = '+' :: "++ ".data := rfl
  have e3 : ("-".data : Str) = '-' :: [] := rfl
  have e4 : ("+".data : Str) = '+' :: [] := rfl
  have e5 : ("@@ ".data : Str) = '@' :: "@ ".data := rfl
  unfold _colorize_diff_line
  rw [e1, e2, e3, e4, e5]
  simp [List.isPrefixOf, Ne.symm h1, Ne.symm h2, Ne.symm h3]

/-- The empty line is left unstyled. -/
theorem colorize_line_nil : _colorize_diff_line [] = [] := by decide

/-- A line whose first character is the ANSI escape is left unstyled, in
whatever context it appears. -/
theorem colorize_esc_append (t b : Str) :
    _colorize_diff_line (('\x1b' :: t) ++ b) = ('\x1b' :: t) ++ b := by
  rw [List.cons_append]
  exact colorize_line_unstyled_head _ _ (by decide) (by decide) (by decide)

/-- The head of an SGR wrapper up to its newline contains no newline. -/
theorem noNl_sgrHead {c u : Str} (hc : '\n' ∉ c) (hu : '\n' ∉ u) :
    '\n' ∉ ('\x1b' :: '[' :: c ++ 'm' :: u) := by
  intro h
  rcases List.mem_cons.mp h with h | h
  · exact absurd h (by decide)
  rcases List.mem_cons.mp h with h | h
  · exact absurd h (by decide)
  rcases List.mem_append.mp h with h | h
  · exact hc h
  rcases List.mem_cons.mp h with h | h
  · exact absurd h (by decide)
  · exact hu h

/-- A full SGR wrapper of a newline-free line contains no newline. -/
theorem noNl_sgrWrap {c u : Str} (hc : '\n' ∉ c) (hu : '\n' ∉ u) :
    '\n' ∉ sgrWrap c u := by
  intro h
  rw [sgrWrap] at h
  rcases List.mem_cons.mp h with h | h
  · exact absurd h (by decide)
  rcases List.mem_cons.mp h with h | h
  · exact absurd h (by decide)
  rcases List.mem_append.mp h with h | h
  · rcases List.mem_append.mp h with h | h
    · exact hc h
    · rcases List.mem_cons.mp h with h | h
      · exact absurd h (by decide)
      · exact hu h
  · exact absurd h (by decide)

/-- One unfolding step of the splitter at a newline. -/
theorem splitlinesAux_cons_newline (cs acc : Str) :
    splitlinesAux ('\n' :: cs) acc =
      (acc.reverse ++ ['\n']) :: splitlinesAux cs [] := by
  simp [splitlinesAux]

/-- Rewriting an SGR-wrapped newline-terminated line followed by more
text: the single newline sits between the wrapper's head and the reset
followed by the rest. -/
theorem sgrWrap_newline_split (c u b : Str) :
    sgrWrap c (u ++ ['\n']) ++ b =
      ('\x1b' :: '[' :: c ++ 'm' :: u) ++
        ('\n' :: ("\x1b[0m".data ++ b)) := by
  simp [sgrWrap]

/-- Pieces of the line-split of colorized text are themselves left alone
by the colorizer: every piece either starts with the ANSI escape or is an
unstyled original line. `acc` is the pending (reversed) text carried by
the splitter, known to be empty or to start with the escape. -/
theorem colorized_pieces_unstyled :
    ∀ (lines : List Str), LinesShape lines →
    ∀ (acc : Str), '\n' ∉ acc →
      (acc.reverse = [] ∨ ∃ t : Str, acc.reverse = '\x1b' :: t) →
      ∀ p ∈ splitlinesAux (lines.map _colorize_diff_line).flatten acc,
        _colorize_diff_line p = p := by
  intro lines hshape
  induction hshape with
  | nil =>
    intro acc hnl hpend p hp
    simp only [List.map_nil, List.flatten_nil] at hp
    by_cases h : acc = []
    · simp [splitlinesAux, h] at hp
    · simp only [splitlinesAux, if_neg h, List.mem_singleton] at hp
      subst hp
      rcases hpend with hpend | ⟨t, hpend⟩
      · rw [List.reverse_eq_nil_iff] at hpend
        exact absurd hpend h
      · rw [hpend]
        exact colorize_line_unstyled_head _ _ (by decide) (by decide)
          (by decide)
  | lastNoNl u hu hune =>
    intro acc hnl hpend p hp
    simp only [List.map_cons, List.map_nil, List.flatten_cons,
      List.flatten_nil, List.append_nil] at hp
    rcases colorize_line_cases u with ⟨c, hequ, hc⟩ | hequ <;> rw [hequ] at hp
    · have hX : '\n' ∉ sgrWrap c u := noNl_sgrWrap hc hu
      have hsplit := splitlinesAux_append_noNl (sgrWrap c u) hX [] acc
      rw [List.append_nil] at hsplit
      rw [hsplit] at hp
      have hne2 : (sgrWrap c u).reverse ++ acc ≠ [] := by simp [sgrWrap]
      simp only [splitlinesAux, if_neg hne2, List.mem_singleton] at hp
      subst hp
      have hform : ((sgrWrap c u).reverse ++ acc).reverse =
          acc.reverse ++ sgrWrap c u := by simp
      rw [hform]
      rcases hpend with hpend | ⟨t, hpend⟩
      · rw [hpend, List.nil_append]
        exact colorize_line_unstyled_head _ _ (by decide) (by decide)
          (by decide)
      · rw [hpend]
        exact colorize_esc_append t (sgrWrap c u)
    · have hsplit := splitlinesAux_append_noNl u hu [] acc
      rw [List.append_nil] at hsplit
      rw [hsplit] at hp
      have hne2 : u.reverse ++ acc ≠ [] := by
        simp [List.reverse_eq_nil_iff, hune]
      simp only [splitlinesAux, if_neg hne2, List.mem_singleton] at hp
      subst hp
      have hform : (u.reverse ++ acc).reverse = acc.reverse ++ u := by simp
      rw [hform]
      rcases hpend with hpend | ⟨t, hpend⟩
      · rw [hpend, List.nil_append]
        exact hequ
      · rw [hpend]
        exact colorize_esc_append t u
  | consNl u rest hu hrest ih =>
    intro acc hnl hpend p hp
    simp only [List.map_cons, List.flatten_cons] at hp
    rcases colorize_line_cases (u ++ ['\n']) with ⟨c, hequ, hc⟩ | hequ <;>
      rw [hequ] at hp
    · rw [sgrWrap_newline_split] at hp
      rw [splitlinesAux_append_noNl _ (noNl_sgrHead hc hu) _ acc] at hp
      rw [splitlinesAux_cons_newline] at hp
      rcases List.mem_cons.mp hp with hp | hp
      · subst hp
        have hform :
            (('\x1b' :: '[' :: c ++ 'm' :: u).reverse ++ acc).reverse ++
                ['\n'] =
              acc.reverse ++
                (('\x1b' :: '[' :: c ++ 'm' :: u) ++ ['\n']) := by
          simp
        rw [hform]
        rcases hpend with hpend | ⟨t, hpend⟩
        · rw [hpend, List.nil_append]
          exact colorize_esc_append _ _
        · rw [hpend]
          exact colorize_esc_append t _
      · rw [splitlinesAux_append_noNl "\x1b[0m".data (by decide) _ []] at hp
        rw [List.append_nil] at hp
        exact ih ("\x1b[0m".data.reverse) (by decide)
          (Or.inr ⟨"[0m".data, by decide⟩) p hp
    · have hsh : (u ++ ['\n']) ++ (rest.map _colorize_diff_line).flatten =
          u ++ ('\n' :: (rest.map _colorize_diff_line).flatten) := by simp
      rw [hsh] at hp
      rw [splitlinesAux_append_noNl u hu _ acc] at hp
      rw [splitlinesAux_cons_newline] at hp
      rcases List.mem_cons.mp hp with hp | hp
      · subst hp
        have hform : (u.reverse ++ acc).reverse ++ ['\n'] =
            acc.reverse ++ (u ++ ['\n']) := by simp
        rw [hform]
        rcases hpend with hpend | ⟨t, hpend⟩
        · rw [hpend, List.nil_append]
          exact hequ
        · rw [hpend]
          exact colorize_esc_append t _
      · exact ih [] (by simp) (Or.inl rfl) p hp

/-- Colorizing already-colorized text is a no-op. -/
theorem colorize_diff_str_idem (s : Str) :
    colorize_diff_str (colorize_diff_str s) = colorize_diff_str s := by
  have hshape : LinesShape (splitlinesKeepends s) :=
    linesShape_splitlinesAux s [] (by simp)
  have hfix : ∀ p ∈ splitlinesKeepends (colorize_diff_str s),
      _colorize_diff_line p = p :=
    colorized_pieces_unstyled (splitlinesKeepends s) hshape [] (by simp)
      (Or.inl rfl)
  calc colorize_diff_str (colorize_diff_str s)
      = (List.map _colorize_diff_line
          (splitlinesKeepends (colorize_diff_str s))).flatten := rfl
    _ = (List.map id (splitlinesKeepends (colorize_diff_str s))).flatten := by
          rw [List.map_congr_left hfix]; rfl
    _ = (splitlinesKeepends (colorize_diff_str s)).flatten := by
          rw [List.map_id]
    _ = colorize_diff_str s := flatten_splitlinesKeepends _

/-- C9 (counterexample to the claim as stated): the line `---a` starts
with `---`, yet the colorizer styles it with the second color
(`color_red`), not the header color — the code matches the header prefix
with a trailing space, `--- `. -/
theorem c9_header_prefix_counterexample :
    "---".data.isPrefixOf "---a".data = true ∧
      _colorize_diff_line "---a".data = color_red "---a".data ∧
      _colorize_diff_line "---a".data ≠ color_bold_white "---a".data := by
  decide

/-- C9 (amended): exactly one styling rule applies per line — lines
starting with `--- ` or `+++ ` (header prefixes with trailing space) get
the header color, other lines starting with `-` the second color, other
lines starting with `+` the third, lines starting with `@@ ` the fourth,
all other lines are unstyled — and applying the colorizer to
already-colorized text is a no-op. -/
theorem c9_colorize_rules_and_idempotent :
    (∀ line : Str,
      ("--- ".data.isPrefixOf line || "+++ ".data.isPrefixOf line) = true →
        _colorize_diff_line line = color_bold_white line) ∧
    (∀ line : Str,
      ("--- ".data.isPrefixOf line || "+++ ".data.isPrefixOf line) = false →
        "-".data.isPrefixOf line = true →
        _colorize_diff_line line = color_red line) ∧
    (∀ line : Str,
      ("--- ".data.isPrefixOf line || "+++ ".data.isPrefixOf line) = false →
        "-".data.isPrefixOf line = false →
        "+".data.isPrefixOf line = true →
        _colorize_diff_line line = color_green line) ∧
    (∀ line : Str,
      ("--- ".data.isPrefixOf line || "+++ ".data.isPrefixOf line) = false →
        "-".data.isPrefixOf line = false →
        "+".data.isPrefixOf line = false →
        "@@ ".data.isPrefixOf line = true →
        _colorize_diff_line line = color_aqua line) ∧
    (∀ line : Str,
      ("--- ".data.isPrefixOf line || "+++ ".data.isPrefixOf line) = false →
        "-".data.isPrefixOf line = false →
        "+".data.isPrefixOf line = false →
        "@@ ".data.isPrefixOf line = false →
        _colorize_diff_line line = line) ∧
    (∀ s : Str, colorize_diff_str (colorize_diff_str s) = colorize_diff_str s)
    := by
  refine ⟨?_, ?_, ?_, ?_, ?_, colorize_diff_str_idem⟩
  · intro line h; simp [_colorize_diff_line, h]
  · intro line h h1; simp [_colorize_diff_line, h, h1]
  · intro line h h1 h2; simp [_colorize_diff_line, h, h1, h2]
  · intro line h h1 h2 h3; simp [_colorize_diff_line, h, h1, h2, h3]
  · intro line h h1 h2 h3; simp [_colorize_diff_line, h, h1, h2, h3]

/-- Witness for the amended C9 at concrete inputs: a real header line is
bold-white, and colorizing an already colorized two-line diff is a
no-op. -/
theorem c9_colorize_rules_and_idempotent_witness :
    _colorize_diff_line "--- a\n".data = color_bold_white "--- a\n".data ∧
      colorize_diff_str (colorize_diff_str "--- a\n-x\n".data) =
        colorize_diff_str "--- a\n-x\n".data :=
  ⟨c9_colorize_rules_and_idempotent.1 "--- a\n".data (by decide),
   c9_colorize_rules_and_idempotent.2.2.2.2.2 "--- a\n-x\n".data⟩

/-- A successful `(original)$` check needs at least the 10 literal
characters. -/
theorem origAt_length {t : Str} (h : origAt t = true) : 10 ≤ t.length := by
  rw [origAt, Bool.and_eq_true] at h
  have hp := List.isPrefixOf_iff_prefix.mp h.1
  simpa using hp.length_le

/-- A successful `\s+` backtrack consumes at least one character and
lands on `(original)$`. -/
theorem tryW_sound {r : Str} :
    ∀ {n w : Nat}, tryW r n = some w →
      1 ≤ w ∧ origAt (r.drop w) = true := by
  intro n
  induction n with
  | zero => intro w h; simp [tryW] at h
  | succ n ih =>
    intro w h
    rw [tryW] at h
    cases ho : origAt (r.drop (n + 1)) with
    | true =>
      rw [ho] at h
      simp only [if_true] at h
      cases h
      exact ⟨Nat.succ_le_succ (Nat.zero_le n), ho⟩
    | false =>
      rw [ho] at h
      simp only [Bool.false_eq_true, if_false] at h
      exact ih h

/-- A successful group backtrack: the whitespace run is nonempty and the
match lands on `(original)$` after group and whitespace. -/
theorem tryA_sound {rest : Str} :
    ∀ {p : Nat} {pw : Nat × Nat}, tryA rest p = some pw →
      1 ≤ pw.2 ∧ origAt (rest.drop (pw.1 + pw.2)) = true := by
  intro p
  induction p with
  | zero =>
    intro pw h
    rw [tryA] at h
    cases htw : tryW rest ((rest.takeWhile pyWhitespace).length) with
    | none => rw [htw] at h; simp at h
    | some w =>
      rw [htw] at h
      simp only [Option.map_some', Option.some.injEq] at h
      cases h
      obtain ⟨h1, h2⟩ := tryW_sound htw
      exact ⟨h1, by simpa using h2⟩
  | succ p ih =>
    intro pw h
    rw [tryA] at h
    cases htw : tryW (rest.drop (p + 1))
        (((rest.drop (p + 1)).takeWhile pyWhitespace).length) with
    | none => rw [htw] at h; exact ih h
    | some w =>
      rw [htw] at h
      cases h
      obtain ⟨h1, h2⟩ := tryW_sound htw
      rw [List.drop_drop] at h2
      exact ⟨h1, h2⟩

/-- A match consumes at least one character and never runs past the end
of the text. -/
theorem matchHeaderAt_bounds {l : Str} {gl : Str × Nat}
    (h : matchHeaderAt l = some gl) : 1 ≤ gl.2 ∧ gl.2 ≤ l.length := by
  rw [matchHeaderAt] at h
  cases hpre : "--- ".data.isPrefixOf l with
  | false => rw [hpre] at h; simp at h
  | true =>
    rw [hpre] at h
    simp only [if_true] at h
    cases hta : tryA (l.drop 4)
        (((l.drop 4).takeWhile (fun c => c != '\n')).length) with
    | none => rw [hta] at h; simp at h
    | some pw =>
      rw [hta] at h
      simp only [Option.some.injEq] at h
      obtain ⟨hw1, ho⟩ := tryA_sound hta
      have h10 := origAt_length ho
      have hpre4 : 4 ≤ l.length := by
        have hp := List.isPrefixOf_iff_prefix.mp hpre
        simpa using hp.length_le
      have hlen : ((l.drop 4).drop (pw.1 + pw.2)).length =
          l.length - 4 - (pw.1 + pw.2) := by
        rw [List.length_drop, List.length_drop]
      rw [← h]
      refine ⟨by simp, by simp; omega⟩

/-- Every recorded match position lies in the scanned window, whatever
the fuel. -/
theorem finditerAux_mem_bounds :
    ∀ (fuel : Nat) (l : Str) (pos : Nat) (st : Bool),
      ∀ m ∈ finditerAux fuel l pos st,
      pos ≤ m.1 ∧ m.1 < pos + l.length := by
  intro fuel l pos st
  induction fuel, l, pos, st using finditerAux.induct with
  | case1 l pos st => intro m hm; simp [finditerAux] at hm
  | case2 fuel pos st => intro m hm; simp [finditerAux] at hm
  | case3 fuel c cs pos gl hmatch ih =>
    intro m hm
    rw [finditerAux, if_pos rfl, hmatch] at hm
    obtain ⟨h1, h2⟩ := matchHeaderAt_bounds hmatch
    rcases List.mem_cons.mp hm with hm | hm
    · subst hm
      simp only [List.length_cons]
      omega
    · obtain ⟨hl, hr⟩ := ih m hm
      have hd : (cs.drop (gl.2 - 1)).length = cs.length - (gl.2 - 1) := by
        simp [List.length_drop]
      simp only [List.length_cons] at h2 ⊢
      omega
  | case4 fuel c cs pos hmatch ih =>
    intro m hm
    rw [finditerAux, if_pos rfl, hmatch] at hm
    obtain ⟨hl, hr⟩ := ih m hm
    simp only [List.length_cons]
    omega
  | case5 fuel c cs pos st hst ih =>
    intro m hm
    rw [finditerAux, if_neg hst] at hm
    obtain ⟨hl, hr⟩ := ih m hm
    simp only [List.length_cons]
    omega

/-- Recorded match positions are strictly increasing, whatever the
fuel. -/
theorem finditerAux_chain :
    ∀ (fuel : Nat) (l : Str) (pos : Nat) (st : Bool),
      List.Chain' (fun a b : Nat × Str => a.1 < b.1)
        (finditerAux fuel l pos st) := by
  intro fuel l pos st
  induction fuel, l, pos, st using finditerAux.induct with
  | case1 l pos st => simp [finditerAux]
  | case2 fuel pos st => simp [finditerAux]
  | case3 fuel c cs pos gl hmatch ih =>
    rw [finditerAux, if_pos rfl, hmatch]
    rw [List.chain'_cons']
    refine ⟨?_, ih⟩
    intro y hy
    have hmem : y ∈ finditerAux fuel (cs.drop (gl.2 - 1))
        (pos + gl.2) false :=
      List.mem_of_mem_head? hy
    obtain ⟨hl, _⟩ := finditerAux_mem_bounds _ _ _ _ y hmem
    obtain ⟨h1, _⟩ := matchHeaderAt_bounds hmatch
    simp only
    omega
  | case4 fuel c cs pos hmatch ih =>
    rw [finditerAux, if_pos rfl, hmatch]
    exact ih
  | case5 fuel c cs pos st hst ih =>
    rw [finditerAux, if_neg hst]
    exact ih

/-- If a pair of the successor zip carries `some e`, then `e` follows the
first component somewhere in the list: under strictly increasing
positions its position is strictly larger. -/
theorem zipNext_lt :
    ∀ (ms : List (Nat × Str)),
      List.Chain' (fun a b : Nat × Str => a.1 < b.1) ms →
      ∀ {a e : Nat × Str},
        (a, some e) ∈ ms.zip ((ms.drop 1).map some ++ [none]) →
        a.1 < e.1 := by
  intro ms
  induction ms with
  | nil => intro _ a e h; simp at h
  | cons m rest ih =>
    intro hchain a e h
    cases rest with
    | nil => simp at h
    | cons r rest2 =>
      simp only [List.drop_succ_cons, List.drop_zero, List.map_cons,
        List.cons_append, List.zip_cons_cons, List.mem_cons] at h
      rcases h with h | h
      · obtain ⟨h1, h2⟩ := Prod.mk.injEq .. ▸ h
        obtain he := Option.some.injEq .. ▸ h2
        subst h1
        rw [List.chain'_cons] at hchain
        have := hchain.1
        rw [← he] at this  -- careful direction
        exact this
      · exact ih (List.Chain'.tail hchain) h

/-- A nonempty line stays nonempty under the colorizer. -/
theorem colorize_line_ne_nil {p : Str} (h : p ≠ []) :
    _colorize_diff_line p ≠ [] := by
  rcases colorize_line_cases p with ⟨c, he, _⟩ | he <;> rw [he]
  · simp [sgrWrap]
  · exact h

/-- Colorizing a nonempty string yields a nonempty string. -/
theorem colorize_diff_str_ne_nil {s : Str} (h : s ≠ []) :
    colorize_diff_str s ≠ [] := by
  obtain ⟨p, rest, hsplit⟩ : ∃ p rest, splitlinesKeepends s = p :: rest := by
    cases hsp : splitlinesKeepends s with
    | nil => exact absurd hsp (splitlinesKeepends_ne_nil h)
    | cons p rest => exact ⟨p, rest, rfl⟩
  have hpmem : p ∈ splitlinesKeepends s := by
    rw [hsplit]; exact List.mem_cons_self _ _
  have hpne : p ≠ [] := splitlinesAux_pieces_ne_nil s [] p hpmem
  rw [colorize_diff_str, colorize_diff, hsplit]
  simp only [List.map_cons, List.flatten_cons]
  intro hc
  rcases List.append_eq_nil.mp hc with ⟨h1, _⟩
  exact colorize_line_ne_nil hpne h1

/-- A property of values is preserved by folding dict assignments. -/
theorem foldl_dictAssign_values {α : Type} (P : α → Prop) :
    ∀ (kvs acc : List (Str × α)),
      (∀ kv ∈ acc, P kv.2) → (∀ kv ∈ kvs, P kv.2) →
      ∀ kv ∈ kvs.foldl (fun d kv => dictAssign d kv.1 kv.2) acc, P kv.2 := by
  intro kvs
  induction kvs with
  | nil => intro acc hacc _ kv hkv; exact hacc kv hkv
  | cons kv0 kvs ih =>
    intro acc hacc hkvs kv hkv
    simp only [List.foldl_cons] at hkv
    refine ih (dictAssign acc kv0.1 kv0.2) ?_
      (fun x hx => hkvs x (List.mem_cons_of_mem _ hx)) kv hkv
    intro x hx
    rcases mem_dictAssign hx with hx | ⟨h1, h2⟩
    · exact hacc x hx
    · rw [h2]
      exact hkvs kv0 (List.mem_cons_self _ _)

/-- Each per-file segment entry carries a nonempty (colorized) slice:
slices start at a match position (inside the text) and run to the next,
strictly larger, match position or to the end. -/
theorem segEntries_values_ne_nil {stdout : Str} :
    ∀ kv ∈ segEntries stdout (finditer stdout), kv.2 ≠ [] := by
  intro kv hkv
  rw [segEntries] at hkv
  rcases List.mem_map.mp hkv with ⟨⟨m, nxt⟩, hse, hkveq⟩
  obtain ⟨hmem, _⟩ := List.of_mem_zip hse
  obtain ⟨hpos0, hposlt⟩ := finditerAux_mem_bounds stdout.length stdout 0 true m hmem
  subst hkveq
  cases nxt with
  | none =>
    apply colorize_diff_str_ne_nil
    intro hnil
    have hlenn := congrArg List.length hnil
    rw [List.length_drop] at hlenn
    simp only [List.length_nil] at hlenn
    omega
  | some e =>
    have hlt : m.1 < e.1 :=
      zipNext_lt (finditer stdout) (finditerAux_chain stdout.length stdout 0 true) hse
    apply colorize_diff_str_ne_nil
    intro hnil
    have hlenn := congrArg List.length hnil
    rw [List.length_take, List.length_drop] at hlenn
    simp only [List.length_nil] at hlenn
    omega

/-- `check_py_format` with empty stderr returns just the stdout-derived
entries and logs nothing. -/
theorem check_py_format_no_stderr (files : List Str) (stdout : Str) :
    check_py_format files stdout [] =
      (if stdout = [] then []
       else (segEntries stdout (finditer stdout)).foldl
         (fun d kv => dictAssign d kv.1 kv.2) [], []) := by
  rw [check_py_format]
  simp only [if_pos rfl, if_true]

/-- C10: the generic per-file pipeline (`_check_files`, used by the C, GN
and Go checks) never stores an empty diff, and neither does the Python
checker when yapf produced no stderr — the empty-diff marker can only come
from the stderr branch. -/
theorem c10_empty_diff_only_from_py_stderr :
    (∀ (udiff : List Str → List Str → Str → Str → List Str)
        (decode : Bytes → Str) (contents : Str → Bytes) (files : List Str)
        (formatter : Str → Bytes → Bytes),
      ∀ kv ∈ _check_files udiff decode contents files formatter,
        kv.2 ≠ ([] : Str)) ∧
    (∀ (files : List Str) (stdout : Str),
      ∀ kv ∈ (check_py_format files stdout []).1, kv.2 ≠ ([] : Str)) := by
  constructor
  · intro udiff decode contents files formatter
    suffices key : ∀ (fs : List Str) (acc : List (Str × Str)),
        (∀ kv ∈ acc, kv.2 ≠ ([] : Str)) →
        ∀ kv ∈ fs.foldl
          (fun errors path =>
            match _diff_formatted udiff decode contents path formatter with
            | none => errors
            | some d => if d = [] then errors else dictAssign errors path d)
          acc, kv.2 ≠ ([] : Str) by
      exact key files [] (by simp)
    intro fs
    induction fs with
    | nil => intro acc hacc kv hkv; exact hacc kv hkv
    | cons p fs ih =>
      intro acc hacc kv hkv
      simp only [List.foldl_cons] at hkv
      refine ih _ ?_ kv hkv
      rcases hd : _diff_formatted udiff decode contents p formatter with _ | d
      · simpa only [hd] using hacc
      · simp only [hd]
        by_cases hdnil : d = []
        · simpa only [if_pos hdnil] using hacc
        · rw [if_neg hdnil]
          intro x hx
          rcases mem_dictAssign hx with hx | ⟨h1, h2⟩
          · exact hacc x hx
          · rw [h2]; exact hdnil
  · intro files stdout kv hkv
    rw [check_py_format_no_stderr] at hkv
    by_cases hs : stdout = []
    · rw [if_pos hs] at hkv
      simp at hkv
    · rw [if_neg hs] at hkv
      exact foldl_dictAssign_values (fun v => v ≠ ([] : Str))
        (segEntries stdout (finditer stdout)) [] (by simp)
        segEntries_values_ne_nil kv hkv

/-- Witness for C10 at concrete inputs: a one-file check with a
non-identity formatter stores the rendered diff `x`, which is nonempty. -/
theorem c10_empty_diff_only_from_py_stderr_witness :
    ("a.c".data, "x".data).2 ≠ ([] : Str) :=
  c10_empty_diff_only_from_py_stderr.1 (fun _ _ _ _ => ["x".data])
    (fun _ => []) (fun _ => []) ["a.c".data] (fun _ _ => [1])
    ("a.c".data, "x".data) (by decide)

/-- `strLe` is total. -/
theorem strLe_total : ∀ a b : Str, (strLe a b || strLe b a) = true := by
  intro a
  induction a with
  | nil => intro b; simp [strLe]
  | cons c as ih =>
    intro b
    cases b with
    | nil => simp [strLe]
    | cons d bs =>
      by_cases hcd : c = d
      · subst hcd
        simpa [strLe] using ih bs
      · have hdc : ¬ d = c := fun h => hcd h.symm
        simp only [strLe, if_neg hcd, if_neg hdc]
        rcases lt_or_gt_of_ne hcd with h | h
        · simp [h]
        · simp [h]

/-- `strLe` is transitive. -/
theorem strLe_trans :
    ∀ a b c : Str, strLe a b = true → strLe b c = true →
      strLe a c = true := by
  intro a
  induction a with
  | nil => intro b c _ _; simp [strLe]
  | cons x as ih =>
    intro b c hab hbc
    cases b with
    | nil => simp [strLe] at hab
    | cons y bs =>
      cases c with
      | nil => simp [strLe] at hbc
      | cons z cs =>
        by_cases hxy : x = y <;> by_cases hyz : y = z
        · subst hxy; subst hyz
          simp only [strLe, if_pos rfl] at hab hbc ⊢
          exact ih bs cs hab hbc
        · subst hxy
          simp only [strLe, if_pos rfl, if_neg hyz] at hbc ⊢
          exact hbc
        · subst hyz
          simp only [strLe, if_neg hxy] at hab ⊢
          exact hab
        · simp only [strLe, if_neg hxy, if_neg hyz] at hab hbc
          have hxz : x < z :=
            lt_trans (of_decide_eq_true hab) (of_decide_eq_true hbc)
          have hne : ¬ x = z := ne_of_lt hxz
          simp [strLe, hne, hxz]

/-- Entries of a dict update come from the old dict or the new pairs. -/
theorem mem_dictUpdate {α : Type} {kv : Str × α} :
    ∀ (new d : List (Str × α)), kv ∈ dictUpdate d new →
      kv ∈ d ∨ kv ∈ new := by
  intro new
  induction new with
  | nil => intro d h; exact Or.inl h
  | cons kv0 rest ih =>
    intro d h
    rw [dictUpdate, List.foldl_cons] at h
    rcases ih _ h with h | h
    · rcases mem_dictAssign h with h | ⟨h1, h2⟩
      · exact Or.inl h
      · right
        have : kv = kv0 := Prod.ext h1 h2
        rw [this]
        exact List.mem_cons_self _ _
    · exact Or.inr (List.mem_cons_of_mem _ h)

/-- Entries of the group-merged mapping come from some group's check. -/
theorem mem_mergedErrors {kv : Str × Str}
    {toolCheck : CodeFormat → List Str → List (Str × Str)} :
    ∀ (formats : List (CodeFormat × List Str)) (acc : List (Str × Str)),
      kv ∈ formats.foldl
        (fun errors fg => dictUpdate errors (toolCheck fg.1 fg.2)) acc →
      kv ∈ acc ∨ ∃ fg ∈ formats, kv ∈ toolCheck fg.1 fg.2 := by
  intro formats
  induction formats with
  | nil => intro acc h; exact Or.inl h
  | cons fg formats ih =>
    intro acc h
    rw [List.foldl_cons] at h
    rcases ih _ h with h | ⟨fg', hfg', hkv⟩
    · rcases mem_dictUpdate _ _ h with h | h
      · exact Or.inl h
      · exact Or.inr ⟨fg, List.mem_cons_self _ _, h⟩
    · exact Or.inr ⟨fg', List.mem_cons_of_mem _ hfg', hkv⟩

/-- C5: `CodeFormatter.check` returns exactly the group results merged
into one mapping (a permutation of the dict built by updating with each
group's result in order), with its entries sorted by path key, and every
returned entry originates from some group's tool check. -/
theorem c5_check_merges_and_sorts
    (formats : List (CodeFormat × List Str))
    (toolCheck : CodeFormat → List Str → List (Str × Str)) :
    (CodeFormatter.check formats toolCheck).Perm
      (formats.foldl
        (fun errors fg => dictUpdate errors (toolCheck fg.1 fg.2)) []) ∧
    List.Pairwise (fun a b : Str × Str => strLe a.1 b.1 = true)
      (CodeFormatter.check formats toolCheck) ∧
    (∀ kv ∈ CodeFormatter.check formats toolCheck,
      ∃ fg ∈ formats, kv ∈ toolCheck fg.1 fg.2) := by
  refine ⟨List.mergeSort_perm _ _, ?_, ?_⟩
  · exact List.sorted_mergeSort
      (fun a b c hab hbc => strLe_trans a.1 b.1 c.1 hab hbc)
      (fun a b => strLe_total a.1 b.1) _
  · intro kv hkv
    have hmem : kv ∈ formats.foldl
        (fun errors fg => dictUpdate errors (toolCheck fg.1 fg.2)) [] :=
      (List.mergeSort_perm _ _).subset hkv
    rcases mem_mergedErrors formats [] hmem with h | h
    · simp at h
    · exact h

/-- Witness for C5 at a concrete input: one Python group with two files
checked by a tool reporting both; the result is sorted by path. -/
theorem c5_check_merges_and_sorts_witness :
    List.Pairwise (fun a b : Str × Str => strLe a.1 b.1 = true)
      (CodeFormatter.check [(PYTHON_FORMAT, ["b.py".data, "a.py".data])]
        (fun _ fs => fs.map (fun f => (f, "d".data)))) :=
  (c5_check_merges_and_sorts [(PYTHON_FORMAT, ["b.py".data, "a.py".data])]
    (fun _ fs => fs.map (fun f => (f, "d".data)))).2.1

/-- Membership in the first-occurrence dedup with a seen set. -/
theorem mem_dedupFirstAux :
    ∀ (l seen : List Str) (p : Str),
      p ∈ dedupFirstAux l seen ↔ (p ∈ l ∧ p ∉ seen) := by
  intro l
  induction l with
  | nil => intro seen p; simp [dedupFirstAux]
  | cons x xs ih =>
    intro seen p
    rw [dedupFirstAux]
    by_cases hx : x ∈ seen
    · rw [if_pos hx, ih]
      constructor
      · rintro ⟨h1, h2⟩
        exact ⟨List.mem_cons_of_mem _ h1, h2⟩
      · rintro ⟨h1, h2⟩
        rcases List.mem_cons.mp h1 with h1 | h1
        · exact absurd (h1 ▸ hx) h2
        · exact ⟨h1, h2⟩
    · rw [if_neg hx]
      constructor
      · intro h
        rcases List.mem_cons.mp h with h | h
        · subst h; exact ⟨List.mem_cons_self _ _, hx⟩
        · obtain ⟨h1, h2⟩ := (ih (x :: seen) p).mp h
          exact ⟨List.mem_cons_of_mem _ h1,
            fun hs => h2 (List.mem_cons_of_mem _ hs)⟩
      · rintro ⟨h1, h2⟩
        rcases List.mem_cons.mp h1 with h1 | h1
        · exact h1 ▸ List.mem_cons_self _ _
        · by_cases hpx : p = x
          · exact hpx ▸ List.mem_cons_self _ _
          · exact List.mem_cons_of_mem _ ((ih (x :: seen) p).mpr
              ⟨h1, fun hs => by
                rcases List.mem_cons.mp hs with hs | hs
                · exact hpx hs
                · exact h2 hs⟩)

/-- The first-occurrence dedup has no duplicates. -/
theorem nodup_dedupFirstAux :
    ∀ (l seen : List Str), (dedupFirstAux l seen).Nodup := by
  intro l
  induction l with
  | nil => intro seen; simp [dedupFirstAux]
  | cons x xs ih =>
    intro seen
    rw [dedupFirstAux]
    by_cases hx : x ∈ seen
    · rw [if_pos hx]; exact ih seen
    · rw [if_neg hx]
      refine List.Nodup.cons ?_ (ih (x :: seen))
      intro hmem
      exact ((mem_dedupFirstAux xs (x :: seen) x).mp hmem).2
        (List.mem_cons_self _ _)

/-- C7: inside a Git repo the resolved list is exactly the union of the
Git listing and the resolved explicit regular files, without duplicates
and sorted by path; outside a Git repo it is just the resolved explicit
regular files. -/
theorem c7_resolved_file_list (env : MainEnv) (paths exclude : List Str)
    (base : Str) :
    (env.isGitRepo = true →
      (∀ p, p ∈ resolvedFiles env paths exclude base ↔
        (p ∈ env.listGitFiles base paths exclude ∨
          p ∈ (paths.filter env.isFile).map env.resolve)) ∧
      List.Pairwise (fun a b : Str => strLe a b = true)
        (resolvedFiles env paths exclude base) ∧
      (resolvedFiles env paths exclude base).Nodup) ∧
    (env.isGitRepo = false →
      resolvedFiles env paths exclude base =
        (paths.filter env.isFile).map env.resolve) := by
  constructor
  · intro hgit
    have hres : resolvedFiles env paths exclude base =
        sortedFileUnion (env.listGitFiles base paths exclude)
          (initialFiles env paths) := by
      rw [resolvedFiles, hgit]
      simp
    refine ⟨?_, ?_, ?_⟩
    · intro p
      rw [hres, sortedFileUnion, (List.mergeSort_perm _ _).mem_iff,
        dedupFirst, mem_dedupFirstAux]
      simp [initialFiles]
    · rw [hres, sortedFileUnion]
      exact List.sorted_mergeSort strLe_trans strLe_total _
    · rw [hres, sortedFileUnion]
      exact (List.mergeSort_perm _ _).nodup_iff.mpr
        (nodup_dedupFirstAux _ [])
  · intro hgit
    rw [resolvedFiles, hgit]
    simp [initialFiles]

/-- Witness for C7 at a concrete environment: in a Git repo listing `b`,
with explicit path `a`, the resolved list is duplicate-free (it is
`[a, b]`). -/
theorem c7_resolved_file_list_witness :
    (resolvedFiles
      ⟨true, fun _ => true, fun p => p, fun _ _ _ => ["b".data]⟩
      ["a".data] [] []).Nodup :=
  ((c7_resolved_file_list
    ⟨true, fun _ => true, fun p => p, fun _ _ _ => ["b".data]⟩
    ["a".data] [] []).1 rfl).2.2

/-- Behaviour of the tail of `main`: exit code by errors/fix, exactly one
check run, and `fix()` run when errors were found and fixing requested. -/
theorem mainBody_spec (files : List Str)
    (toolCheck : CodeFormat → List Str → List (Str × Str)) (fix : Bool) :
    (mainBody files toolCheck fix).1 =
      (if (CodeFormatter.check (CodeFormatter.formats files)
            toolCheck).isEmpty then 0 else if fix then 0 else 1) ∧
    (mainBody files toolCheck fix).2.count Event.ranCheck = 1 ∧
    ((CodeFormatter.check (CodeFormatter.formats files)
        toolCheck).isEmpty = false → fix = true →
      Event.ranFix ∈ (mainBody files toolCheck fix).2) := by
  rw [mainBody]
  cases he : (CodeFormatter.check (CodeFormatter.formats files)
      toolCheck).isEmpty with
  | true => simp [he, List.count_cons, List.count_append]
  | false =>
    cases fix with
    | true => simp [he, List.count_cons, List.count_append]
    | false => simp [he, List.count_cons, List.count_append]

/-- In a Git repo, `main` prepends the repository log and otherwise acts
as its tail. -/
theorem mainEntry_git (env : MainEnv)
    (toolCheck : CodeFormat → List Str → List (Str × Str))
    (paths exclude : List Str) (base : Str) (fix : Bool)
    (hgit : env.isGitRepo = true) :
    mainEntry env toolCheck paths exclude base fix =
      ((mainBody (resolvedFiles env paths exclude base) toolCheck fix).1,
        Event.repoLog ::
          (mainBody (resolvedFiles env paths exclude base)
            toolCheck fix).2) := by
  rw [mainEntry, hgit]
  simp

/-- Outside a Git repo with no base, `main` is exactly its tail. -/
theorem mainEntry_nogit_nobase (env : MainEnv)
    (toolCheck : CodeFormat → List Str → List (Str × Str))
    (paths exclude : List Str) (fix : Bool)
    (hgit : env.isGitRepo = false) :
    mainEntry env toolCheck paths exclude [] fix =
      mainBody (resolvedFiles env paths exclude []) toolCheck fix := by
  rw [mainEntry, hgit]
  simp

/-- C3: whenever the fail-fast branch is not taken (in a Git repo, or no
base given), the exit code is 0 if `check()` found no errors; 0 if errors
were found and fixing was requested, in which case `fix()` runs; and 1 if
errors were found and fixing was not requested. The check runs exactly
once — there is no re-check after fixing. -/
theorem c3_exit_codes (env : MainEnv)
    (toolCheck : CodeFormat → List Str → List (Str × Str))
    (paths exclude : List Str) (base : Str) (fix : Bool)
    (h : env.isGitRepo = true ∨ base = []) :
    (mainEntry env toolCheck paths exclude base fix).1 =
      (if (CodeFormatter.check
            (CodeFormatter.formats (resolvedFiles env paths exclude base))
            toolCheck).isEmpty then 0 else if fix then 0 else 1) ∧
    (mainEntry env toolCheck paths exclude base fix).2.count
        Event.ranCheck = 1 ∧
    ((CodeFormatter.check
        (CodeFormatter.formats (resolvedFiles env paths exclude base))
        toolCheck).isEmpty = false → fix = true →
      Event.ranFix ∈ (mainEntry env toolCheck paths exclude base fix).2) := by
  obtain ⟨hb1, hb2, hb3⟩ :=
    mainBody_spec (resolvedFiles env paths exclude base) toolCheck fix
  cases hgit : env.isGitRepo with
  | true =>
    rw [mainEntry_git env toolCheck paths exclude base fix hgit]
    refine ⟨hb1, ?_, fun h1 h2 => ?_⟩
    · simp only [List.count_cons]
      rw [hb2]
      simp
    · exact List.mem_cons_of_mem _ (hb3 h1 h2)
  | false =>
    have hbase : base = [] := by
      rcases h with h | h
      · rw [hgit] at h; simp at h
      · exact h
    subst hbase
    rw [mainEntry_nogit_nobase env toolCheck paths exclude fix hgit]
    exact ⟨hb1, hb2, hb3⟩

/-- Witness for C3 at a concrete input: in a Git repo with no files and a
clean tool, the exit code matches the no-errors branch. -/
theorem c3_exit_codes_witness :
    (mainEntry ⟨true, fun _ => false, fun p => p, fun _ _ _ => []⟩
        (fun _ _ => []) [] [] [] false).1 =
      (if (CodeFormatter.check
            (CodeFormatter.formats
              (resolvedFiles ⟨true, fun _ => false, fun p => p,
                fun _ _ _ => []⟩ [] [] []))
            (fun _ _ => [])).isEmpty then 0 else if false then 0 else 1) :=
  (c3_exit_codes ⟨true, fun _ => false, fun p => p, fun _ _ _ => []⟩
    (fun _ _ => []) [] [] [] false (Or.inl rfl)).1

/-- C4: outside a Git repo with a base revision supplied, `main` logs one
critical error and returns 1, with no other observable action — no check,
no fix, no report. -/
theorem c4_base_outside_git (env : MainEnv)
    (toolCheck : CodeFormat → List Str → List (Str × Str))
    (paths exclude : List Str) (base : Str) (fix : Bool)
    (hgit : env.isGitRepo = false) (hbase : base ≠ []) :
    mainEntry env toolCheck paths exclude base fix =
      (1, [Event.criticalBaseOutsideRepo]) := by
  rw [mainEntry, hgit]
  simp [hbase]

/-- Witness for C4 at a concrete input: outside Git with `--base HEAD~1`,
the run fails fast with only the critical log. -/
theorem c4_base_outside_git_witness :
    mainEntry ⟨false, fun _ => true, fun p => p, fun _ _ _ => []⟩
        (fun _ _ => []) [] [] "HEAD~1".data false =
      (1, [Event.criticalBaseOutsideRepo]) :=
  c4_base_outside_git ⟨false, fun _ => true, fun p => p, fun _ _ _ => []⟩
    (fun _ _ => []) [] [] "HEAD~1".data false rfl (by decide)

/-- Dict lookup distributes over list append, preferring the left dict. -/
theorem dictLookup_append {α : Type} :
    ∀ (a b : List (Str × α)) (k : Str),
      dictLookup (a ++ b) k = (dictLookup a k).or (dictLookup b k) := by
  intro a
  induction a with
  | nil => intro b k; simp [dictLookup]
  | cons kv rest ih =>
    intro b k
    by_cases hk : kv.1 = k
    · simp [dictLookup, hk]
    · simp [dictLookup, hk, ih]

/-- Lookup in a dict after `update`: the value of the last occurrence of
the key in the update list wins; otherwise the old dict answers. -/
theorem dictLookup_dictUpdate_or {α : Type} :
    ∀ (new d : List (Str × α)) (k : Str),
      dictLookup (dictUpdate d new) k =
        (dictLookup new.reverse k).or (dictLookup d k) := by
  intro new
  induction new with
  | nil => intro d k; simp [dictUpdate, dictLookup]
  | cons kv rest ih =>
    intro d k
    rw [dictUpdate, List.foldl_cons]
    rw [show List.foldl (fun d kv => dictAssign d kv.1 kv.2)
        (dictAssign d kv.1 kv.2) rest =
      dictUpdate (dictAssign d kv.1 kv.2) rest from rfl]
    rw [ih, dictLookup_dictAssign]
    rw [List.reverse_cons, dictLookup_append]
    cases hr : dictLookup rest.reverse k with
    | some v => simp [Option.or]
    | none =>
      by_cases hk : kv.1 = k <;> simp [Option.or, dictLookup, hk]

/-- A key absent from every entry looks up to nothing. -/
theorem dictLookup_eq_none_of_no_key {α : Type} :
    ∀ (l : List (Str × α)) (k : Str), (∀ kv ∈ l, kv.1 ≠ k) →
      dictLookup l k = none := by
  intro l
  induction l with
  | nil => intro k _; rfl
  | cons kv rest ih =>
    intro k h
    rw [dictLookup]
    rw [if_neg (h kv (List.mem_cons_self _ _))]
    exact ih k (fun e he => h e (List.mem_cons_of_mem _ he))

/-- A lookup succeeds exactly when some entry has the key. -/
theorem dictLookup_isSome_iff {α : Type} :
    ∀ (l : List (Str × α)) (k : Str),
      (dictLookup l k).isSome = true ↔ ∃ kv ∈ l, kv.1 = k := by
  intro l
  induction l with
  | nil =>
    intro k
    constructor
    · intro h; simp [dictLookup] at h
    · rintro ⟨e, he, _⟩; simp at he
  | cons kv rest ih =>
    intro k
    by_cases hk : kv.1 = k
    · constructor
      · intro _; exact ⟨kv, List.mem_cons_self _ _, hk⟩
      · intro _; simp [dictLookup, hk]
    · simp only [dictLookup, if_neg hk, ih, List.mem_cons]
      constructor
      · rintro ⟨e, he, hek⟩
        exact ⟨e, Or.inr he, hek⟩
      · rintro ⟨e, he | he, hek⟩
        · exact absurd (he ▸ hek) hk
        · exact ⟨e, he, hek⟩

/-- In a dict whose values are all `v0`, a lookup is `none` or `some v0`. -/
theorem dictLookup_constval {α : Type} (v0 : α) :
    ∀ (l : List (Str × α)), (∀ kv ∈ l, kv.2 = v0) → ∀ k,
      dictLookup l k = none ∨ dictLookup l k = some v0 := by
  intro l
  induction l with
  | nil => intro _ k; exact Or.inl rfl
  | cons kv rest ih =>
    intro h k
    rw [dictLookup]
    by_cases hk : kv.1 = k
    · rw [if_pos hk]
      exact Or.inr (by rw [h kv (List.mem_cons_self _ _)])
    · rw [if_neg hk]
      exact ih (fun e he => h e (List.mem_cons_of_mem _ he)) k

/-- Lookup through the fill fold `{file: '' for file in fl}`. -/
theorem dictLookup_fillFold :
    ∀ (fl : List Str) (acc : List (Str × Str)) (k : Str),
      dictLookup (fl.foldl (fun d f => dictAssign d f ([] : Str)) acc) k =
        (if k ∈ fl then some ([] : Str) else dictLookup acc k) := by
  intro fl
  induction fl with
  | nil => intro acc k; simp
  | cons f fl ih =>
    intro acc k
    rw [List.foldl_cons, ih, dictLookup_dictAssign]
    by_cases hfl : k ∈ fl
    · simp [hfl]
    · by_cases hfk : f = k
      · subst hfk
        simp [hfl]
      · have : ¬ k ∈ f :: fl := by
          intro hc
          rcases List.mem_cons.mp hc with hc | hc
          · exact hfk hc.symm
          · exact hfl hc
        simp [hfl, hfk, this]

/-- Entries of the fill fold carry empty values and keys from the list. -/
theorem mem_fillFold :
    ∀ (fl : List Str) (acc : List (Str × Str)) (kv : Str × Str),
      kv ∈ fl.foldl (fun d f => dictAssign d f ([] : Str)) acc →
      kv ∈ acc ∨ (kv.1 ∈ fl ∧ kv.2 = []) := by
  intro fl
  induction fl with
  | nil => intro acc kv h; exact Or.inl h
  | cons f fl ih =>
    intro acc kv h
    rw [List.foldl_cons] at h
    rcases ih _ kv h with h | ⟨h1, h2⟩
    · rcases mem_dictAssign h with h | ⟨h1, h2⟩
      · exact Or.inl h
      · exact Or.inr ⟨h1 ▸ List.mem_cons_self _ _, h2⟩
    · exact Or.inr ⟨List.mem_cons_of_mem _ h1, h2⟩

/-- `check_py_format` with nonempty stderr: the stdout-derived dict is
updated with empty-diff entries for the not-yet-present input files, and
the stderr content is logged (once). -/
theorem check_py_format_with_stderr (files : List Str) (stdout stderr : Str)
    (h : stderr ≠ []) :
    check_py_format files stdout stderr =
      (dictUpdate (check_py_format files stdout []).1
        ((files.filter
          (fun f => (dictLookup (check_py_format files stdout []).1
            f).isNone)).foldl
          (fun d f => dictAssign d f ([] : Str)) []),
       ["yapf encountered an error:\n".data ++ rstrip stderr]) := by
  rw [check_py_format_no_stderr]
  rw [check_py_format]
  simp [h]

/-- C2 (counterexample to the claim as stated): with stderr present but
stdout carrying a parsed diff for `a.py`, the returned mapping keeps the
nonempty colorized diff for `a.py` instead of the empty-string marker the
claim demands for every input path. -/
theorem c2_stderr_empty_diff_counterexample :
    "a.py".data ∈ ["a.py".data] ∧
      dictLookup (check_py_format ["a.py".data]
          "--- a.py (original)\n+++ a.py (reformatted)\n-x\n".data
          "boom".data).1 "a.py".data ≠ some ([] : Str) := by
  constructor
  · exact List.mem_cons_self _ _
  · decide

/-- C2 (amended): whenever yapf produces nonempty stderr, every input
path is present in the returned mapping; paths without a stdout-parsed
diff are marked with the empty-string (unknown) diff, while paths that
already had a parsed diff keep it; and the stderr content is logged
exactly once. -/
theorem c2_stderr_marks_all_inputs (files : List Str) (stdout stderr : Str)
    (hstderr : stderr ≠ []) :
    (∀ f ∈ files, ∃ v,
      dictLookup (check_py_format files stdout stderr).1 f = some v) ∧
    (∀ f ∈ files,
      dictLookup (check_py_format files stdout []).1 f = none →
      dictLookup (check_py_format files stdout stderr).1 f =
        some ([] : Str)) ∧
    (∀ f v, dictLookup (check_py_format files stdout []).1 f = some v →
      dictLookup (check_py_format files stdout stderr).1 f = some v) ∧
    (check_py_format files stdout stderr).2 =
      ["yapf encountered an error:\n".data ++ rstrip stderr] := by
  rw [check_py_format_with_stderr files stdout stderr hstderr]
  set E := (check_py_format files stdout []).1 with hE
  set fl := files.filter (fun f => (dictLookup E f).isNone) with hfl
  set upd := fl.foldl (fun d f => dictAssign d f ([] : Str)) [] with hupd
  have hupdval : ∀ kv ∈ upd, kv.2 = ([] : Str) := by
    intro kv hkv
    rcases mem_fillFold fl [] kv hkv with h | ⟨_, h⟩
    · simp at h
    · exact h
  have hupdkey : ∀ kv ∈ upd, kv.1 ∈ fl := by
    intro kv hkv
    rcases mem_fillFold fl [] kv hkv with h | ⟨h, _⟩
    · simp at h
    · exact h
  have hupdlook : ∀ k, dictLookup upd k =
      (if k ∈ fl then some ([] : Str) else none) := by
    intro k
    rw [hupd, dictLookup_fillFold]
    simp [dictLookup]
  have hrevlook : ∀ k, dictLookup upd.reverse k =
      (if k ∈ fl then some ([] : Str) else none) := by
    intro k
    by_cases hk : k ∈ fl
    · rw [if_pos hk]
      have hsome : (dictLookup upd k).isSome = true := by
        rw [hupdlook k, if_pos hk]; rfl
      obtain ⟨kv, hkv, hkvk⟩ := (dictLookup_isSome_iff upd k).mp hsome
      have hsome2 : (dictLookup upd.reverse k).isSome = true :=
        (dictLookup_isSome_iff upd.reverse k).mpr
          ⟨kv, List.mem_reverse.mpr hkv, hkvk⟩
      rcases dictLookup_constval ([] : Str) upd.reverse
          (fun kv hkv => hupdval kv (List.mem_reverse.mp hkv)) k with
        hnone | hempty
      · rw [hnone] at hsome2; simp at hsome2
      · exact hempty
    · rw [if_neg hk]
      apply dictLookup_eq_none_of_no_key
      intro kv hkv hkvk
      exact hk (hkvk ▸ hupdkey kv (List.mem_reverse.mp hkv))
  have hmain : ∀ k, dictLookup (dictUpdate E upd) k =
      (if k ∈ fl then some ([] : Str) else dictLookup E k) := by
    intro k
    rw [dictLookup_dictUpdate_or, hrevlook k]
    by_cases hk : k ∈ fl
    · simp [hk, Option.or]
    · simp [hk, Option.or]
  refine ⟨?_, ?_, ?_, rfl⟩
  · intro f hf
    rw [hmain f]
    by_cases hfE : (dictLookup E f).isNone = true
    · have hmem : f ∈ fl := by
        rw [hfl]
        exact List.mem_filter.mpr ⟨hf, hfE⟩
      rw [if_pos hmem]
      exact ⟨[], rfl⟩
    · have hnmem : f ∉ fl := by
        intro hmem
        rw [hfl] at hmem
        exact hfE (List.mem_filter.mp hmem).2
      rw [if_neg hnmem]
      cases he : dictLookup E f with
      | none => rw [he] at hfE; simp at hfE
      | some v => exact ⟨v, rfl⟩
  · intro f hf hnone
    rw [hmain f]
    have hmem : f ∈ fl := by
      rw [hfl]
      exact List.mem_filter.mpr ⟨hf, by rw [hnone]; rfl⟩
    rw [if_pos hmem]
  · intro f v hsome
    rw [hmain f]
    have hfl2 : f ∉ fl := by
      intro hmem
      rw [hfl] at hmem
      have := (List.mem_filter.mp hmem).2
      rw [hsome] at this
      simp at this
    rw [if_neg hfl2]
    exact hsome

/-- Witness for the amended C2 at concrete inputs: with empty stdout and
stderr `boom`, the lone input file is marked with the empty diff. -/
theorem c2_stderr_marks_all_inputs_witness :
    dictLookup (check_py_format ["a.py".data] [] "boom".data).1
      "a.py".data = some ([] : Str) :=
  (c2_stderr_marks_all_inputs ["a.py".data] [] "boom".data
    (by decide)).2.1 "a.py".data (List.mem_cons_self _ _) (by decide)

/-- Assigning a fresh key appends the pair at the end. -/
theorem dictAssign_append {α : Type} :
    ∀ (acc : List (Str × α)) (k : Str) (v : α),
      (∀ e ∈ acc, e.1 ≠ k) → dictAssign acc k v = acc ++ [(k, v)] := by
  intro acc
  induction acc with
  | nil => intro k v _; rfl
  | cons e rest ih =>
    intro k v h
    obtain ⟨k0, v0⟩ := e
    rw [dictAssign]
    rw [if_neg (h (k0, v0) (List.mem_cons_self _ _))]
    rw [ih k v (fun e he => h e (List.mem_cons_of_mem _ he))]
    rfl

/-- Folding assignments of pairwise-distinct fresh keys just appends the
pairs in order. -/
theorem foldl_dictAssign_eq_append {α : Type} :
    ∀ (kvs acc : List (Str × α)),
      (kvs.map Prod.fst).Nodup →
      (∀ e ∈ acc, ∀ kv ∈ kvs, e.1 ≠ kv.1) →
      kvs.foldl (fun d kv => dictAssign d kv.1 kv.2) acc = acc ++ kvs := by
  intro kvs
  induction kvs with
  | nil => intro acc _ _; simp
  | cons kv rest ih =>
    intro acc hnodup hdisj
    rw [List.foldl_cons]
    rw [dictAssign_append acc kv.1 kv.2
      (fun e he => hdisj e he kv (List.mem_cons_self _ _))]
    rw [List.map_cons, List.nodup_cons] at hnodup
    rw [ih (acc ++ [(kv.1, kv.2)]) hnodup.2 ?_]
    · simp
    · intro e he kv' hkv'
      rcases List.mem_append.mp he with he | he
      · exact hdisj e he kv' (List.mem_cons_of_mem _ hkv')
      · rcases List.mem_singleton.mp he with rfl
        intro heq
        exact hnodup.1 (heq ▸ List.mem_map_of_mem Prod.fst hkv')

/-- The keys of the per-segment entries are the matches' group-1 paths,
in order. -/
theorem segEntries_map_fst (raw : Str) (ms : List (Nat × Str)) :
    (segEntries raw ms).map Prod.fst = ms.map (fun m => m.2) := by
  rw [segEntries, List.map_map]
  have hlen : ms.length ≤ ((ms.drop 1).map some ++ [none]).length := by
    simp only [List.length_append, List.length_map, List.length_drop,
      List.length_singleton]
    omega
  have hz : List.map (Prod.fst ∘ fun se : (Nat × Str) × Option (Nat × Str) =>
      (se.1.2,
       colorize_diff_str
         (match se.2 with
          | some e => (raw.drop se.1.1).take (e.1 - se.1.1)
          | none => raw.drop se.1.1))) (ms.zip ((ms.drop 1).map some ++ [none]))
      = List.map ((fun m : Nat × Str => m.2) ∘ Prod.fst)
        (ms.zip ((ms.drop 1).map some ++ [none])) := rfl
  rw [hz, ← List.map_map, List.map_fst_zip ms _ hlen]

/-- C8: whenever the matched per-file paths are distinct (as they are in
real yapf output, one header per file), the Python check's stdout
processing returns exactly one entry per located `--- <path> (original)`
header, keying the matched path to the colorized slice of the combined
diff from that header up to the next header (or the end of the output for
the last one) — that is, it equals `segEntries` over the regex matches. -/
theorem c8_py_split_matches_spec (files : List Str) (stdout : Str)
    (hnodup : ((finditer stdout).map (fun m => m.2)).Nodup) :
    (check_py_format files stdout []).1 =
      segEntries stdout (finditer stdout) := by
  rw [check_py_format_no_stderr]
  by_cases hs : stdout = []
  · rw [if_pos hs]
    subst hs
    rfl
  · rw [if_neg hs]
    have hkeys : ((segEntries stdout (finditer stdout)).map
        Prod.fst).Nodup := by
      rw [segEntries_map_fst]; exact hnodup
    have h := foldl_dictAssign_eq_append
      (segEntries stdout (finditer stdout)) [] hkeys (by simp)
    simpa using h

/-- Witness for C8 at a concrete input: a two-file yapf diff is split at
the two headers, `a.py` taking the slice up to `b.py`'s header and `b.py`
the slice to the end. -/
theorem c8_py_split_matches_spec_witness :
    (check_py_format ["a.py".data]
        "--- a.py (original)\n-x\n--- b.py (original)\n-y\n".data []).1 =
      segEntries "--- a.py (original)\n-x\n--- b.py (original)\n-y\n".data
        (finditer
          "--- a.py (original)\n-x\n--- b.py (original)\n-y\n".data) :=
  c8_py_split_matches_spec ["a.py".data]
    "--- a.py (original)\n-x\n--- b.py (original)\n-y\n".data (by decide)
